import Mathlib

/-!
Verification of the aztec-connect rollup aggregation core (falafel `Server`,
`FeeCalculator`, and the blockchain `Contracts` adapter) against its
natural-language specification.  TypeScript sources are embedded shallowly:
byte buffers become `List Nat`, JS `bigint` becomes `Nat`/`Int` (JS bigint
division truncates toward zero, i.e. `Int.tdiv`), and the stateful
`WorldStateDb` becomes explicit state passing.
-/

namespace AztecConnect

/-- A byte buffer (`Buffer` in node), one `Nat` per byte. -/
abbrev Buffer := List Nat

/-- `Buffer.alloc(64, 0)`: the all-zero 64-byte leaf used as "unset". -/
def emptyValue : Buffer := List.replicate 64 0

/-- 64 zero bytes with the last byte set to 1 (`nonEmptyValue` in `server.ts`). -/
def nonEmptyValue : Buffer := List.replicate 63 0 ++ [1]

/-- `toBigIntBE`: big-endian bytes to an unsigned integer. -/
def toBigIntBE (b : Buffer) : Nat := b.foldl (fun acc x => acc * 256 + x) 0

/-- `toBufferBE(n, len)`: `n` as `len` big-endian bytes. -/
def toBufferBE (n len : Nat) : Buffer :=
  (List.range len).map fun i => n / 256 ^ (len - 1 - i) % 256

/-! ## The world state store

`world_state_db.ts` itself is not among the provided sources; only its callers
in `server.ts` are.  The store is therefore modelled from the spec. -/

/-- One view of the three Merkle trees: for each tree id, the leaf at each
index and the tree size.  Modelled from the spec: a "missing" leaf reads as
all zeros, so a view is total over indices. -/
structure TreeView where
  leaf : Nat → Nat → Buffer
  size : Nat → Nat

/-- Staging a put: the leaf is replaced and the size grows to cover it. -/
def TreeView.put (v : TreeView) (t i : Nat) (val : Buffer) : TreeView where
  leaf := fun t2 i2 => if t2 = t ∧ i2 = i then val else v.leaf t2 i2
  size := fun t2 => if t2 = t then max (v.size t2) (i + 1) else v.size t2

/-- Modelled from the spec: `WorldStateDb` (the repository's
`world_state_db.ts`, absent from the sources) keeps a committed view and a
working overlay; `put` stages into the overlay, `commit` promotes it,
`rollback` discards it, and reads (`get`, `getSize`, roots, hash paths)
reflect the staged state. -/
structure WorldStateDb where
  committed : TreeView
  working : TreeView

def WorldStateDb.get (db : WorldStateDb) (t i : Nat) : Buffer := db.working.leaf t i

def WorldStateDb.put (db : WorldStateDb) (t i : Nat) (v : Buffer) : WorldStateDb :=
  ⟨db.committed, db.working.put t i v⟩

def WorldStateDb.commit (db : WorldStateDb) : WorldStateDb := ⟨db.working, db.working⟩

def WorldStateDb.rollback (db : WorldStateDb) : WorldStateDb := ⟨db.committed, db.committed⟩

def WorldStateDb.getSize (db : WorldStateDb) (t : Nat) : Nat := db.working.size t

/-- A Merkle hash path: `data[level]` is the pair of sibling values at that
level (spec §4.1: `depth+1` entries, leaf sibling first). -/
structure HashPath where
  data : List (List Buffer)
deriving DecidableEq

/-- The Merkle hashing backend: root and hash path are pure functions of a
tree view.  Modelled from the spec: the store's hashing internals are opaque
to `server.ts`, which only requires them to be deterministic reads of the
staged state. -/
structure MerkleHash where
  root : TreeView → Nat → Buffer
  hashPath : TreeView → Nat → Nat → HashPath

def WorldStateDb.getRoot (db : WorldStateDb) (H : MerkleHash) (t : Nat) : Buffer :=
  H.root db.working t

def WorldStateDb.getHashPath (db : WorldStateDb) (H : MerkleHash) (t i : Nat) : HashPath :=
  H.hashPath db.working t i

/-! ## Signature marshalling (`Contracts.solidityFormatSignatures`) -/

namespace Contracts

/-- `solidityFormatSignatures` from the blockchain adapter: per signature,
`Buffer.concat([sig.slice(0, 64), Buffer.alloc(31), sig.slice(-1)])`, then the
concatenation of all records. -/
def solidityFormatSignatures (signatures : List Buffer) : Buffer :=
  (signatures.map fun s => s.take 64 ++ List.replicate 31 0 ++ s.drop (s.length - 1)).flatten

end Contracts

/-- A single padded record has 96 bytes when the input signature has 65. -/
lemma formatOne_length (s : Buffer) (h : s.length = 65) :
    (s.take 64 ++ List.replicate 31 0 ++ s.drop (s.length - 1)).length = 96 := by
  simp [List.length_take, List.length_drop, h]

lemma solidityFormatSignatures_cons (s : Buffer) (rest : List Buffer) :
    Contracts.solidityFormatSignatures (s :: rest) =
      (s.take 64 ++ List.replicate 31 0 ++ s.drop (s.length - 1)) ++
        Contracts.solidityFormatSignatures rest := by
  simp [Contracts.solidityFormatSignatures]

lemma solidityFormatSignatures_length (signatures : List Buffer)
    (h : ∀ s ∈ signatures, s.length = 65) :
    (Contracts.solidityFormatSignatures signatures).length = signatures.length * 96 := by
  induction signatures with
  | nil => simp [Contracts.solidityFormatSignatures]
  | cons s rest ih =>
    rw [solidityFormatSignatures_cons]
    have hs : s.length = 65 := h s (List.mem_cons_self s rest)
    have hrest := ih fun x hx => h x (List.mem_cons_of_mem s hx)
    simp only [List.length_append, formatOne_length s hs, hrest, List.length_cons]
    ring

/-- C5.  For 65-byte compact signatures, the output is `signatures.len * 96`
bytes and the `k`-th 96-byte record is `r||s` (64 bytes copied), then 31 zero
bytes, then the recovery byte `input[64]`. -/
theorem solidityFormatSignatures_spec (signatures : List Buffer)
    (h : ∀ s ∈ signatures, s.length = 65) (k : Nat) (hk : k < signatures.length) :
    (Contracts.solidityFormatSignatures signatures).length = signatures.length * 96 ∧
    (((Contracts.solidityFormatSignatures signatures).drop (96 * k)).take 96).take 64 =
      (signatures.getD k []).take 64 ∧
    ((((Contracts.solidityFormatSignatures signatures).drop (96 * k)).take 96).drop 64).take 31 =
      List.replicate 31 0 ∧
    (((Contracts.solidityFormatSignatures signatures).drop (96 * k)).take 96).getD 95 0 =
      (signatures.getD k []).getD 64 0 := by
  refine ⟨solidityFormatSignatures_length signatures h, ?_⟩
  induction signatures generalizing k with
  | nil => exact absurd hk (by simp)
  | cons s rest ih =>
    have hs : s.length = 65 := h s (List.mem_cons_self s rest)
    have hrest : ∀ x ∈ rest, x.length = 65 := fun x hx => h x (List.mem_cons_of_mem s hx)
    have hA : (s.take 64).length = 64 := by rw [List.length_take]; omega
    have hC : s.drop (s.length - 1) = s.drop 64 := by rw [hs]
    rw [solidityFormatSignatures_cons]
    cases k with
    | zero =>
      rw [Nat.mul_zero, List.drop_zero, List.append_assoc, List.append_assoc]
      refine ⟨?_, ?_, ?_⟩
      · rw [List.take_take, show (64 : Nat) ⊓ 96 = 64 from rfl, List.take_left' hA]
        simp
      · rw [List.drop_take, List.drop_left' hA,
          show (96 : Nat) - 64 = 32 from rfl, List.take_take,
          show (31 : Nat) ⊓ 32 = 31 from rfl,
          List.take_left' (List.length_replicate 31 0)]
      · rw [List.getD_eq_getElem?_getD, List.getElem?_take_of_lt (by omega),
          List.getElem?_append_right (by rw [hA]; omega), hA,
          List.getElem?_append_right (by simp), List.length_replicate, hC,
          @List.getElem?_append Nat (s.drop 64) _ _, List.length_drop, hs]
        rw [if_pos (by omega), List.getElem?_drop]
        simp
    | succ k0 =>
      have hrec : (s.take 64 ++ List.replicate 31 0 ++ s.drop (s.length - 1)).length = 96 :=
        formatOne_length s hs
      have hk0 : k0 < rest.length := by simpa using hk
      have hdrop :
          ((s.take 64 ++ List.replicate 31 0 ++ s.drop (s.length - 1)) ++
              Contracts.solidityFormatSignatures rest).drop (96 * (k0 + 1)) =
            (Contracts.solidityFormatSignatures rest).drop (96 * k0) := by
        have h1 : 96 * (k0 + 1) = 96 + 96 * k0 := by ring
        rw [h1, ← List.drop_drop, List.drop_left' hrec]
      rw [hdrop]
      simpa using ih hrest k0 hk0

/-! ## FeeCalculator -/

/-- Transaction types, in the fixed order the fee quote uses. -/
inductive TxType
  | DEPOSIT
  | TRANSFER
  | WITHDRAW_TO_WALLET
  | WITHDRAW_TO_CONTRACT
  | ACCOUNT
  | DEFI_DEPOSIT
  | DEFI_CLAIM
deriving DecidableEq

/-- Proof ids carried by a client proof blob. -/
inductive ProofId
  | DEPOSIT
  | WITHDRAW
  | SEND
  | ACCOUNT
  | DEFI_DEPOSIT
  | DEFI_CLAIM
deriving DecidableEq

/-- A persisted transaction, with the fields the barretenberg client-proof
parsers (`ClientProofData`, `JoinSplitClientProofData`,
`DefiDepositClientProofData`, `DefiClaimClientProofData` — external to this
repository) extract from its proof data: the proof id, the join-split asset
id, the bridge's input asset id, and the claimed fee. -/
structure TxDao where
  txType : TxType
  proofId : ProofId
  assetId : Nat
  bridgeInputAssetId : Nat
  txFee : Nat
deriving DecidableEq

/-- `FeeCalculator`'s construction inputs.  `assetPrice`/`gasPrice` stand for
the `PriceTracker` oracle, `decimals`/`gasConstants` for the per-asset
blockchain config.  `feeGasPriceMultiplierTimes100` is the source's
`feeGasPriceMultiplier * 100` (the code scales the 2-digit fractional
multiplier by 100 before converting to bigint). -/
structure FeeCalculator where
  assetPrice : Nat → Nat
  gasPrice : Nat
  decimals : Nat → Nat
  gasConstants : Nat → TxType → Nat
  baseTxGas : Nat
  maxFeeGasPrice : Nat
  feeGasPriceMultiplierTimes100 : Nat
  txsPerRollup : Nat
  publishInterval : Nat
  feeFreeAssets : List Nat

/-- `applyGasPrice`: the expected value `v * gasPrice * multiplierPct / 100`,
capped at `v * maxFeeGasPrice` only when `maxFeeGasPrice` is truthy. -/
def FeeCalculator.applyGasPrice (f : FeeCalculator) (value : Nat) : Nat :=
  let expectedValue := value * f.gasPrice * f.feeGasPriceMultiplierTimes100 / 100
  let maxValue := if f.maxFeeGasPrice ≠ 0 then value * f.maxFeeGasPrice else expectedValue
  if expectedValue > maxValue then maxValue else expectedValue

/-- `toAssetPrice`: 0 when the oracle price is 0, otherwise
`applyGasPrice(gas * 10^decimals) / price`. -/
def FeeCalculator.toAssetPrice (f : FeeCalculator) (assetId gas : Nat) : Nat :=
  let price := f.assetPrice assetId
  if price = 0 then 0 else f.applyGasPrice (gas * 10 ^ f.decimals assetId) / price

def FeeCalculator.getBaseFee (f : FeeCalculator) (assetId : Nat) : Nat :=
  if assetId ∈ f.feeFreeAssets then 0 else f.toAssetPrice assetId f.baseTxGas

def FeeCalculator.getFeeConstant (f : FeeCalculator) (assetId : Nat) (txType : TxType) : Nat :=
  if assetId ∈ f.feeFreeAssets then 0
  else f.toAssetPrice assetId (f.gasConstants assetId txType)

def FeeCalculator.getMinTxFee (f : FeeCalculator) (assetId : Nat) (txType : TxType) : Nat :=
  if txType = TxType.ACCOUNT then 0
  else f.getFeeConstant assetId txType + f.getBaseFee assetId

/-- `toEthPrice`: identity for the native asset (id 0), otherwise
`price * oraclePrice / 10^decimals` with JS bigint (truncating) division. -/
def FeeCalculator.toEthPrice (f : FeeCalculator) (assetId : Nat) (price : Int) : Int :=
  if assetId = 0 then price
  else Int.tdiv (price * (f.assetPrice assetId : Int)) ((10 : Int) ^ f.decimals assetId)

/-- `getFeeForTxDao`: ACCOUNT txs are fee-free in ETH; DEFI deposit/claim
proofs pay in the bridge's input asset; anything else is a join-split paying
in its own asset. -/
def getFeeForTxDao (tx : TxDao) : Nat × Nat :=
  if tx.txType = TxType.ACCOUNT then (0, 0)
  else
    match tx.proofId with
    | ProofId.DEFI_DEPOSIT => (tx.bridgeInputAssetId, tx.txFee)
    | ProofId.DEFI_CLAIM => (tx.bridgeInputAssetId, tx.txFee)
    | _ => (tx.assetId, tx.txFee)

/-- `computeSurplusRatio`.  `feeSurplus / baseFee` is a JS *bigint* division
(truncating) before the float arithmetic; the float steps on the already
truncated quotient are exact and are modelled over `ℚ`. -/
def FeeCalculator.computeSurplusRatio (f : FeeCalculator) (txs : List TxDao) : ℚ :=
  let baseFee := f.getBaseFee 0
  if baseFee = 0 then 1
  else
    let feeSurplus :=
      (txs.map fun tx =>
        let p := getFeeForTxDao tx
        let minFee := f.getMinTxFee p.1 tx.txType
        f.toEthPrice p.1 ((p.2 : Int) - (minFee : Int))).foldl (· + ·) 0
    let ratio : ℚ := 1 - ((Int.tdiv feeSurplus (baseFee : Int) : Int) : ℚ) / (f.txsPerRollup : ℚ)
    min 1 (max 0 ratio)

/-! ### C6: the spec's exact-rational surplus formula vs the code -/

/-- The claim's per-tx surplus, written from the claim's words: ACCOUNT
contributes zero; DEFI deposit/claim use the bridge's input asset; the
surplus `(txFee - minTxFee)` is converted to native-asset units. -/
def txSurplusSpec (f : FeeCalculator) (tx : TxDao) : Int :=
  if tx.txType = TxType.ACCOUNT then 0
  else
    let assetId :=
      match tx.proofId with
      | ProofId.DEFI_DEPOSIT => tx.bridgeInputAssetId
      | ProofId.DEFI_CLAIM => tx.bridgeInputAssetId
      | _ => tx.assetId
    f.toEthPrice assetId ((tx.txFee : Int) - (f.getMinTxFee assetId tx.txType : Int))

/-- The claim's formula, with *exact* rational division:
`clamp(1 - Σ / (baseFee * txsPerRollup), 0, 1)`. -/
def surplusRatioSpec (f : FeeCalculator) (txs : List TxDao) : ℚ :=
  if f.getBaseFee 0 = 0 then 1
  else
    min 1 (max 0 (1 - (((txs.map (txSurplusSpec f)).sum : Int) : ℚ) /
      ((f.getBaseFee 0 : ℚ) * (f.txsPerRollup : ℚ))))

/-- The formula the code actually computes: Σ is first divided by `baseFee`
with truncating bigint division, and only the quotient is divided by
`txsPerRollup`. -/
def surplusRatioTruncated (f : FeeCalculator) (txs : List TxDao) : ℚ :=
  if f.getBaseFee 0 = 0 then 1
  else
    min 1 (max 0 (1 -
      ((Int.tdiv ((txs.map (txSurplusSpec f)).sum) ((f.getBaseFee 0 : Nat) : Int) : Int) : ℚ) /
        (f.txsPerRollup : ℚ)))

lemma txSurplus_code_eq_spec (f : FeeCalculator) (tx : TxDao) :
    (let p := getFeeForTxDao tx
     let minFee := f.getMinTxFee p.1 tx.txType
     f.toEthPrice p.1 ((p.2 : Int) - (minFee : Int))) = txSurplusSpec f tx := by
  by_cases hacc : tx.txType = TxType.ACCOUNT
  · simp [getFeeForTxDao, txSurplusSpec, hacc, FeeCalculator.getMinTxFee,
      FeeCalculator.toEthPrice]
  · simp only [getFeeForTxDao, txSurplusSpec, if_neg hacc]
    cases tx.proofId <;> rfl

/-- The code's surplus ratio equals the truncated-division formula over the
claim's per-tx surplus. -/
lemma computeSurplusRatio_eq_truncated (f : FeeCalculator) (txs : List TxDao) :
    f.computeSurplusRatio txs = surplusRatioTruncated f txs := by
  have hm : (txs.map fun tx =>
      let p := getFeeForTxDao tx
      let minFee := f.getMinTxFee p.1 tx.txType
      f.toEthPrice p.1 ((p.2 : Int) - (minFee : Int))) = txs.map (txSurplusSpec f) := by
    induction txs with
    | nil => rfl
    | cons t rest ih =>
      simp only [List.map_cons, ih, List.cons.injEq, and_true]
      exact txSurplus_code_eq_spec f t
  simp only [FeeCalculator.computeSurplusRatio, surplusRatioTruncated]
  rw [hm, ← List.sum_eq_foldl]

/-- A concrete fee calculator: oracle price 1, gas price 1, multiplier 1.00,
no cap (`maxFeeGasPrice = 0`), base fee 2, one tx per rollup. -/
def feeCalcEx : FeeCalculator where
  assetPrice := fun _ => 1
  gasPrice := 1
  decimals := fun _ => 0
  gasConstants := fun _ _ => 0
  baseTxGas := 2
  maxFeeGasPrice := 0
  feeGasPriceMultiplierTimes100 := 100
  txsPerRollup := 1
  publishInterval := 600
  feeFreeAssets := []

/-- A deposit paying fee 3 against a minimum fee of 2: surplus 1. -/
def txEx : TxDao := ⟨TxType.DEPOSIT, ProofId.DEPOSIT, 0, 0, 3⟩

/-- C6 counterexample.  With `baseFee = 2`, `txsPerRollup = 1` and a single
tx of surplus 1 the code returns 1 (the bigint quotient `1 / 2` truncates to
0 before the float division), while the claim's exact-rational formula gives
`clamp(1 - 1/2, 0, 1) = 1/2`. -/
theorem computeSurplusRatio_not_exact :
    FeeCalculator.computeSurplusRatio feeCalcEx [txEx] = 1 ∧
    surplusRatioSpec feeCalcEx [txEx] = 1 / 2 := by
  have hbase : feeCalcEx.getBaseFee 0 = 2 := rfl
  have hsum : ([txEx].map (txSurplusSpec feeCalcEx)).sum = 1 := rfl
  have htdiv : Int.tdiv 1 (((2 : Nat) : Int)) = 0 := rfl
  constructor
  · rw [computeSurplusRatio_eq_truncated]
    rw [surplusRatioTruncated, if_neg (by rw [hbase]; omega), hsum, hbase, htdiv]
    norm_num [feeCalcEx]
  · rw [surplusRatioSpec, if_neg (by rw [hbase]; omega), hsum, hbase]
    show min 1 (max 0 (1 - ((1 : Int) : ℚ) / ((2 : ℚ) * ((1 : Nat) : ℚ)))) = 1 / 2
    norm_num

/-- C6 (amended).  `computeSurplusRatio` equals
`clamp(1 - (Σ tdiv baseFee) / txsPerRollup, 0, 1)` where `Σ` sums the per-tx
surplus `(txFee - minTxFee)` in native-asset units (ACCOUNT proofs contribute
zero, DEFI deposit/claim use the bridge's input asset) and `tdiv` is the
truncating bigint division — not the exact `Σ / (baseFee * txsPerRollup)`. -/
theorem computeSurplusRatio_amended (f : FeeCalculator) (txs : List TxDao) :
    f.computeSurplusRatio txs = surplusRatioTruncated f txs :=
  computeSurplusRatio_eq_truncated f txs

/-! ### C7: the asset-price conversion and its `maxFeeGasPrice` cap -/

/-- The claim's `apply(v) = min(v * maxFeeGasPrice, v * gasPrice * multiplierPct / 100)`,
as stated for every value of `maxFeeGasPrice`. -/
def applyGasPriceSpec (f : FeeCalculator) (value : Nat) : Nat :=
  min (value * f.maxFeeGasPrice) (value * f.gasPrice * f.feeGasPriceMultiplierTimes100 / 100)

/-- The claim's `toAssetPrice` formula built on `applyGasPriceSpec`. -/
def toAssetPriceSpec (f : FeeCalculator) (assetId gas : Nat) : Nat :=
  if f.assetPrice assetId = 0 then 0
  else applyGasPriceSpec f (gas * 10 ^ f.decimals assetId) / f.assetPrice assetId

/-- C7 counterexample.  With `maxFeeGasPrice = 0` the code treats the cap as
absent and returns the uncapped expected value (here 1), while the claim's
`min(v * maxFeeGasPrice, …)` would clamp everything to 0. -/
theorem toAssetPrice_cap_claim_false :
    FeeCalculator.toAssetPrice feeCalcEx 0 1 = 1 ∧ toAssetPriceSpec feeCalcEx 0 1 = 0 := by
  constructor <;> rfl

/-- Amended `apply`: the min-cap applies only when `maxFeeGasPrice ≠ 0`;
a configured 0 disables the cap instead of zeroing the fee. -/
def applyGasPriceAmended (f : FeeCalculator) (value : Nat) : Nat :=
  let expected := value * f.gasPrice * f.feeGasPriceMultiplierTimes100 / 100
  if f.maxFeeGasPrice = 0 then expected else min (value * f.maxFeeGasPrice) expected

/-- The amended `toAssetPrice` formula. -/
def toAssetPriceAmended (f : FeeCalculator) (assetId gas : Nat) : Nat :=
  if f.assetPrice assetId = 0 then 0
  else applyGasPriceAmended f (gas * 10 ^ f.decimals assetId) / f.assetPrice assetId

/-- C7 (amended).  `toAssetPrice(assetId, gas)` is 0 whenever the oracle
price is 0, and otherwise equals `apply(gas * 10^decimals) / oraclePrice`
where `apply` caps at `v * maxFeeGasPrice` only for nonzero `maxFeeGasPrice`
and is the uncapped `v * gasPrice * multiplierPct / 100` when the cap is 0. -/
theorem toAssetPrice_amended_spec (f : FeeCalculator) (assetId gas : Nat) :
    f.toAssetPrice assetId gas = toAssetPriceAmended f assetId gas := by
  simp only [FeeCalculator.toAssetPrice, toAssetPriceAmended,
    FeeCalculator.applyGasPrice, applyGasPriceAmended]
  by_cases hp : f.assetPrice assetId = 0
  · simp [hp]
  · simp only [if_neg hp]
    by_cases hm : f.maxFeeGasPrice = 0
    · simp [hm]
    · simp only [if_neg hm, ne_eq, hm, not_false_eq_true, if_true, if_false]
      congr 1
      split <;> omega

/-- A 65-byte compact signature `r||s||v` with `r = s = 0x07…` and `v = 27`. -/
def sigEx : Buffer := List.replicate 64 7 ++ [27]

/-- C5 witness: the marshalling facts at the concrete signature `sigEx`. -/
theorem solidityFormatSignatures_spec_witness :
    (Contracts.solidityFormatSignatures [sigEx]).length = [sigEx].length * 96 ∧
    (((Contracts.solidityFormatSignatures [sigEx]).drop (96 * 0)).take 96).take 64 =
      ([sigEx].getD 0 []).take 64 ∧
    ((((Contracts.solidityFormatSignatures [sigEx]).drop (96 * 0)).take 96).drop 64).take 31 =
      List.replicate 31 0 ∧
    (((Contracts.solidityFormatSignatures [sigEx]).drop (96 * 0)).take 96).getD 95 0 =
      ([sigEx].getD 0 []).getD 64 0 :=
  solidityFormatSignatures_spec [sigEx] (by decide) 0 (by decide)

/-! ### C8: surplus ratio of the empty batch, and antitonicity in any fee -/

/-- Truncating division by a nonnegative divisor is monotone in the dividend. -/
lemma tdiv_le_tdiv_of_le {a b d : Int} (hd : 0 ≤ d) (h : a ≤ b) :
    a.tdiv d ≤ b.tdiv d := by
  rcases le_or_lt 0 a with ha | ha
  · rw [Int.tdiv_eq_ediv ha hd, Int.tdiv_eq_ediv (le_trans ha h) hd]
    rcases eq_or_lt_of_le hd with hd0 | hd0
    · rw [← hd0]; simp
    · exact Int.ediv_le_ediv hd0 h
  · rcases le_or_lt 0 b with hb | hb
    · have h1 : a.tdiv d ≤ 0 := by
        have : (-a).tdiv d ≥ 0 := Int.tdiv_nonneg (by omega) hd
        have hneg : (-a).tdiv d = -(a.tdiv d) := Int.neg_tdiv a d
        omega
      exact le_trans h1 (Int.tdiv_nonneg hb hd)
    · have ha2 : (0 : Int) ≤ -b := by omega
      have h2 : (-b).tdiv d ≤ (-a).tdiv d := by
        rw [Int.tdiv_eq_ediv ha2 hd, Int.tdiv_eq_ediv (by omega) hd]
        rcases eq_or_lt_of_le hd with hd0 | hd0
        · rw [← hd0]; simp
        · exact Int.ediv_le_ediv hd0 (by omega)
      have hna : (-a).tdiv d = -(a.tdiv d) := Int.neg_tdiv a d
      have hnb : (-b).tdiv d = -(b.tdiv d) := Int.neg_tdiv b d
      omega

/-- `toEthPrice` is monotone in the price argument. -/
lemma toEthPrice_mono (f : FeeCalculator) (assetId : Nat) {p q : Int} (h : p ≤ q) :
    f.toEthPrice assetId p ≤ f.toEthPrice assetId q := by
  unfold FeeCalculator.toEthPrice
  split
  · exact h
  · exact tdiv_le_tdiv_of_le (by positivity)
      (mul_le_mul_of_nonneg_right h (by positivity))

/-- The per-tx surplus is monotone in the tx fee, all other fields fixed. -/
lemma txSurplusSpec_mono (f : FeeCalculator) {tx tx2 : TxDao}
    (hty : tx2.txType = tx.txType) (hpi : tx2.proofId = tx.proofId)
    (hai : tx2.assetId = tx.assetId) (hbi : tx2.bridgeInputAssetId = tx.bridgeInputAssetId)
    (hfee : tx.txFee ≤ tx2.txFee) :
    txSurplusSpec f tx ≤ txSurplusSpec f tx2 := by
  unfold txSurplusSpec
  rw [hty, hpi, hai, hbi]
  split
  · exact le_refl 0
  · exact toEthPrice_mono f _ (by
      apply sub_le_sub_right
      exact_mod_cast hfee)

/-- C8.  `computeSurplusRatio [] = 1`, and the ratio is antitone in any single
tx's `txFee` with every other input held fixed. -/
theorem computeSurplusRatio_empty_antitone (f : FeeCalculator)
    (pre post : List TxDao) (tx tx2 : TxDao)
    (hty : tx2.txType = tx.txType) (hpi : tx2.proofId = tx.proofId)
    (hai : tx2.assetId = tx.assetId) (hbi : tx2.bridgeInputAssetId = tx.bridgeInputAssetId)
    (hfee : tx.txFee ≤ tx2.txFee) :
    f.computeSurplusRatio [] = 1 ∧
    f.computeSurplusRatio (pre ++ tx2 :: post) ≤ f.computeSurplusRatio (pre ++ tx :: post) := by
  constructor
  · rw [computeSurplusRatio_eq_truncated, surplusRatioTruncated]
    split
    · rfl
    · simp [Int.zero_tdiv]
  · rw [computeSurplusRatio_eq_truncated, computeSurplusRatio_eq_truncated,
      surplusRatioTruncated, surplusRatioTruncated]
    split
    · exact le_refl 1
    · have hsum : ((pre ++ tx2 :: post).map (txSurplusSpec f)).sum ≥
          ((pre ++ tx :: post).map (txSurplusSpec f)).sum := by
        simp only [List.map_append, List.map_cons, List.sum_append, List.sum_cons]
        have := txSurplusSpec_mono f hty hpi hai hbi hfee
        omega
      have htd := tdiv_le_tdiv_of_le
        (show (0 : Int) ≤ ((f.getBaseFee 0 : Nat) : Int) by positivity) hsum
      have hq : ((Int.tdiv ((pre ++ tx :: post).map (txSurplusSpec f)).sum
            ((f.getBaseFee 0 : Nat) : Int) : Int) : ℚ) ≤
          ((Int.tdiv ((pre ++ tx2 :: post).map (txSurplusSpec f)).sum
            ((f.getBaseFee 0 : Nat) : Int) : Int) : ℚ) := by exact_mod_cast htd
      have hdivle : ((Int.tdiv ((pre ++ tx :: post).map (txSurplusSpec f)).sum
            ((f.getBaseFee 0 : Nat) : Int) : Int) : ℚ) / (f.txsPerRollup : ℚ) ≤
          ((Int.tdiv ((pre ++ tx2 :: post).map (txSurplusSpec f)).sum
            ((f.getBaseFee 0 : Nat) : Int) : Int) : ℚ) / (f.txsPerRollup : ℚ) :=
        div_le_div_of_nonneg_right hq (by positivity)
      exact min_le_min (le_refl 1) (max_le_max (le_refl 0)
        (sub_le_sub_left hdivle 1))

/-- The same deposit as `txEx` but paying one more unit of fee. -/
def txEx2 : TxDao := ⟨TxType.DEPOSIT, ProofId.DEPOSIT, 0, 0, 4⟩

/-- C8 witness at a concrete calculator and concrete txs. -/
theorem computeSurplusRatio_empty_antitone_witness :
    feeCalcEx.computeSurplusRatio [] = 1 ∧
    feeCalcEx.computeSurplusRatio ([] ++ txEx2 :: []) ≤
      feeCalcEx.computeSurplusRatio ([] ++ txEx :: []) :=
  computeSurplusRatio_empty_antitone feeCalcEx [] [] txEx txEx2 rfl rfl rfl rfl (by decide)

/-! ## Transaction admission (`Server.receiveTx`) -/

/-- A parsed join-split proof, with the fields `server.ts` reads from the
barretenberg `JoinSplitProof` wrapper (the parser itself is external to this
repository): the raw proof data, the two new note commitments, the two
nullifiers (big-endian bigint keys), the claimed note-tree root and the two
viewing keys. -/
structure JoinSplitProof where
  proofData : Buffer
  newNote1 : Buffer
  newNote2 : Buffer
  nullifier1 : Nat
  nullifier2 : Nat
  noteTreeRoot : Buffer
  viewingKeys : List Buffer
deriving DecidableEq

/-- The errors `receiveTx` throws, in source order. -/
inductive TxError
  | nullifier1Exists
  | nullifier2Exists
  | merkleRootMissing
  | verificationFailed
deriving DecidableEq

/-- `Server.receiveTx`: nullifier-freshness reads on tree 1, the root-tree
membership read on tree 2 at the low 16 bytes of `noteTreeRoot`, then the
join-split verifier (passed as the function `verify`); on success the parsed
proof is appended to the tx queue.  The world state is threaded through and
returned to witness that admission never mutates it. -/
def receiveTx (verify : Buffer → Bool) (db : WorldStateDb)
    (txQueue : List JoinSplitProof) (proof : JoinSplitProof) :
    WorldStateDb × List JoinSplitProof × Option TxError :=
  let nullifierVal1 := db.get 1 proof.nullifier1
  if ¬ (nullifierVal1 = emptyValue) then
    (db, txQueue, some TxError.nullifier1Exists)
  else
    let nullifierVal2 := db.get 1 proof.nullifier2
    if ¬ (nullifierVal2 = emptyValue) then
      (db, txQueue, some TxError.nullifier2Exists)
    else if db.get 2 (toBigIntBE (proof.noteTreeRoot.drop 16)) = emptyValue then
      (db, txQueue, some TxError.merkleRootMissing)
    else if ¬ (verify proof.proofData = true) then
      (db, txQueue, some TxError.verificationFailed)
    else
      (db, txQueue ++ [proof], none)

/-- The claim's admission condition: both nullifier leaves unset, the root
leaf set, and the verifier accepting. -/
abbrev admissible (verify : Buffer → Bool) (db : WorldStateDb) (proof : JoinSplitProof) : Prop :=
  db.get 1 proof.nullifier1 = emptyValue ∧
  db.get 1 proof.nullifier2 = emptyValue ∧
  db.get 2 (toBigIntBE (proof.noteTreeRoot.drop 16)) ≠ emptyValue ∧
  verify proof.proofData = true

/-- C2.  `receiveTx` never touches the world state; it enqueues exactly the
parsed proof iff the four checks pass; and the error it raises is determined
by the first failing check, in source order: nullifier 1, nullifier 2,
unknown Merkle root, verifier failure. -/
theorem receiveTx_spec (verify : Buffer → Bool) (db : WorldStateDb)
    (txQueue : List JoinSplitProof) (proof : JoinSplitProof) :
    receiveTx verify db txQueue proof =
      (db,
       if admissible verify db proof then txQueue ++ [proof] else txQueue,
       if db.get 1 proof.nullifier1 ≠ emptyValue then some TxError.nullifier1Exists
       else if db.get 1 proof.nullifier2 ≠ emptyValue then some TxError.nullifier2Exists
       else if db.get 2 (toBigIntBE (proof.noteTreeRoot.drop 16)) = emptyValue then
         some TxError.merkleRootMissing
       else if verify proof.proofData ≠ true then some TxError.verificationFailed
       else none) := by
  unfold receiveTx admissible
  split_ifs <;> simp_all

/-! ## Batch controller (`Server.processTxQueue`) -/

/-- The loop state of `processTxQueue`: the pending txs and the arrival time
of the last accepted tx (`moment.unix(0)` initially).  Times are integers
(epoch milliseconds). -/
structure BatchState where
  txs : List JoinSplitProof
  lastTxReceivedTime : Int
deriving DecidableEq

/-- One iteration of the `processTxQueue` loop on dequeuing `tx` at time
`now`: a received tx is appended, `shouldRollup` is evaluated with the
post-append pending list but the *previous* `lastTxReceivedTime` (the code
updates the timestamp only after the check), and on close the whole pending
list is drained and emitted as one batch for the state queue. -/
def processTxStep (rollupSize : Nat) (maxRollupWaitTime : Int) (s : BatchState)
    (tx : Option JoinSplitProof) (now : Int) :
    BatchState × Option (List JoinSplitProof) :=
  let txs1 := s.txs ++ tx.toList
  let last1 := if tx.isSome then now else s.lastTxReceivedTime
  if txs1 ≠ [] ∧ (tx = none ∨ txs1.length = rollupSize ∨
      s.lastTxReceivedTime < now - maxRollupWaitTime) then
    (⟨[], last1⟩, some txs1)
  else
    (⟨txs1, last1⟩, none)

/-- The whole consumer loop over a trace of dequeued items with their
dequeue times; returns the batches put on the state queue, in dispatch
order, and the final loop state. -/
def processTxQueue (rollupSize : Nat) (maxRollupWaitTime : Int) :
    BatchState → List (Option JoinSplitProof × Int) →
      List (List JoinSplitProof) × BatchState
  | s, [] => ([], s)
  | s, (tx, now) :: rest =>
    let step := processTxStep rollupSize maxRollupWaitTime s tx now
    let r := processTxQueue rollupSize maxRollupWaitTime step.1 rest
    (step.2.toList ++ r.1, r.2)

/-- C3.  A step emits a batch iff pending (with the just-received tx) is
non-empty and (the item was the flush sentinel, or pending reached
`rollupSize`, or `lastTxReceivedAt < now - maxRollupWaitTime`); when it
closes it emits exactly the drained pending list as the one batch enqueued,
and resets pending; and over any trace the emitted batches, in dispatch
order, concatenate to the admitted txs in admission order (batches preserve
admission order and are dispatched monotonically). -/
theorem processTxQueue_spec (rollupSize : Nat) (maxRollupWaitTime : Int)
    (s : BatchState) (tx : Option JoinSplitProof) (now : Int)
    (trace : List (Option JoinSplitProof × Int)) :
    ((processTxStep rollupSize maxRollupWaitTime s tx now).2 ≠ none ↔
      s.txs ++ tx.toList ≠ [] ∧ (tx = none ∨
        (s.txs ++ tx.toList).length = rollupSize ∨
        s.lastTxReceivedTime < now - maxRollupWaitTime)) ∧
    (processTxStep rollupSize maxRollupWaitTime s tx now).2 =
      (if s.txs ++ tx.toList ≠ [] ∧ (tx = none ∨
          (s.txs ++ tx.toList).length = rollupSize ∨
          s.lastTxReceivedTime < now - maxRollupWaitTime)
        then some (s.txs ++ tx.toList) else none) ∧
    (processTxStep rollupSize maxRollupWaitTime s tx now).1.txs =
      (if s.txs ++ tx.toList ≠ [] ∧ (tx = none ∨
          (s.txs ++ tx.toList).length = rollupSize ∨
          s.lastTxReceivedTime < now - maxRollupWaitTime)
        then [] else s.txs ++ tx.toList) ∧
    ((processTxQueue rollupSize maxRollupWaitTime s trace).1.flatten ++
        (processTxQueue rollupSize maxRollupWaitTime s trace).2.txs =
      s.txs ++ trace.filterMap Prod.fst) := by
  have hcases : ∀ P : BatchState × Option (List JoinSplitProof) → Prop,
      (s.txs ++ tx.toList ≠ [] ∧ (tx = none ∨
          (s.txs ++ tx.toList).length = rollupSize ∨
          s.lastTxReceivedTime < now - maxRollupWaitTime) →
        P (⟨[], if tx.isSome then now else s.lastTxReceivedTime⟩,
           some (s.txs ++ tx.toList))) →
      (¬(s.txs ++ tx.toList ≠ [] ∧ (tx = none ∨
          (s.txs ++ tx.toList).length = rollupSize ∨
          s.lastTxReceivedTime < now - maxRollupWaitTime)) →
        P (⟨s.txs ++ tx.toList, if tx.isSome then now else s.lastTxReceivedTime⟩,
           none)) →
      P (processTxStep rollupSize maxRollupWaitTime s tx now) := by
    intro P h1 h2
    unfold processTxStep
    by_cases hc : s.txs ++ tx.toList ≠ [] ∧ (tx = none ∨
        (s.txs ++ tx.toList).length = rollupSize ∨
        s.lastTxReceivedTime < now - maxRollupWaitTime)
    · rw [if_pos hc]; exact h1 hc
    · rw [if_neg hc]; exact h2 hc
  refine ⟨?_, ?_, ?_, ?_⟩
  · exact hcases (fun r => r.2 ≠ none ↔ s.txs ++ tx.toList ≠ [] ∧ (tx = none ∨
        (s.txs ++ tx.toList).length = rollupSize ∨
        s.lastTxReceivedTime < now - maxRollupWaitTime))
      (fun hc => iff_of_true (by simp) hc) (fun hc => iff_of_false (by simp) hc)
  · exact hcases (fun r => r.2 = (if s.txs ++ tx.toList ≠ [] ∧ (tx = none ∨
        (s.txs ++ tx.toList).length = rollupSize ∨
        s.lastTxReceivedTime < now - maxRollupWaitTime)
        then some (s.txs ++ tx.toList) else none))
      (fun hc => (if_pos hc).symm) (fun hc => (if_neg hc).symm)
  · exact hcases (fun r => r.1.txs = (if s.txs ++ tx.toList ≠ [] ∧ (tx = none ∨
        (s.txs ++ tx.toList).length = rollupSize ∨
        s.lastTxReceivedTime < now - maxRollupWaitTime)
        then [] else s.txs ++ tx.toList))
      (fun hc => (if_pos hc).symm) (fun hc => (if_neg hc).symm)
  · clear hcases tx now
    induction trace generalizing s with
    | nil => simp [processTxQueue]
    | cons item rest ih =>
      obtain ⟨tx, now⟩ := item
      show ((processTxStep rollupSize maxRollupWaitTime s tx now).2.toList ++
          (processTxQueue rollupSize maxRollupWaitTime
            (processTxStep rollupSize maxRollupWaitTime s tx now).1 rest).1).flatten ++
          (processTxQueue rollupSize maxRollupWaitTime
            (processTxStep rollupSize maxRollupWaitTime s tx now).1 rest).2.txs =
        s.txs ++ ((tx, now) :: rest).filterMap Prod.fst
      rw [List.flatten_append, List.append_assoc,
        ih (processTxStep rollupSize maxRollupWaitTime s tx now).1]
      have hflt : ((tx, now) :: rest).filterMap Prod.fst =
          tx.toList ++ rest.filterMap Prod.fst := by
        cases tx <;> simp [List.filterMap_cons]
      rw [hflt]
      unfold processTxStep
      by_cases hc : s.txs ++ tx.toList ≠ [] ∧ (tx = none ∨
          (s.txs ++ tx.toList).length = rollupSize ∨
          s.lastTxReceivedTime < now - maxRollupWaitTime)
      · rw [if_pos hc]; simp
      · rw [if_neg hc]; simp

/-! ## Confirmed blocks from the contract log (`Contracts.getRollupBlocksFrom`) -/

/-- An on-chain transaction as the ethers provider returns it: its current
confirmation count plus the (opaque) call data `decodeBlock` parses. -/
structure EthTransaction where
  confirmations : Nat
  callData : Buffer
deriving DecidableEq

/-- A `RollupProcessed` event in the contract log: the indexed rollup id,
the block it was mined in, and its transaction. -/
structure RollupEvent where
  rollupId : Nat
  blockNumber : Nat
  tx : EthTransaction
deriving DecidableEq

namespace Contracts

/-- `getRollupBlocksFrom` over the contract's `RollupProcessed` log (in chain
order): `queryFilter(RollupProcessed(rollupId))` is the sub-log tagged with
that id, of which the code takes the first; if there is none it returns `[]`;
otherwise it queries all `RollupProcessed` events from that event's block
onwards, fetches their transactions, keeps those with at least
`minConfirmations` confirmations and decodes each into a Block.  The ABI
decoding (`decodeBlock`) is external and abstracted as `decode`. -/
def getRollupBlocksFrom {α : Type} (decode : EthTransaction → α)
    (log : List RollupEvent) (rollupId minConfirmations : Nat) : List α :=
  match (log.filter fun e => e.rollupId = rollupId).head? with
  | none => []
  | some rollupEvent =>
    let rollupEvents := log.filter fun e => rollupEvent.blockNumber ≤ e.blockNumber
    let txs := rollupEvents.map fun e => e.tx
    (txs.filter fun t => minConfirmations ≤ t.confirmations).map decode

end Contracts

/-- C10.  If the log holds no event tagged `rollupId` the result is `[]`;
otherwise the result is exactly the decodes of the transactions of the
events at or after the tagged event's block that have at least
`minConfirmations` confirmations — under-confirmed transactions are
filtered out silently, not reported as an error. -/
theorem getRollupBlocksFrom_spec {α : Type} (decode : EthTransaction → α)
    (log : List RollupEvent) (rollupId minConfirmations : Nat) :
    Contracts.getRollupBlocksFrom decode log rollupId minConfirmations =
      match (log.filter fun e => e.rollupId = rollupId).head? with
      | none => []
      | some ev =>
        ((log.filter fun e => ev.blockNumber ≤ e.blockNumber ∧
            minConfirmations ≤ e.tx.confirmations).map fun e => decode e.tx) := by
  unfold Contracts.getRollupBlocksFrom
  cases hev : (log.filter fun e => e.rollupId = rollupId).head? with
  | none => rfl
  | some ev =>
    simp only
    rw [List.filter_map, List.map_map, List.filter_filter]
    congr 1
    apply List.filter_congr
    intro e _
    simp [Function.comp, decide_eq_true_eq, Bool.and_comm]

/-! ## Rollup construction (`Server.createRollup`) -/

/-- The `Rollup` witness (`rollup.ts` is not among the sources; its fields
are those of the constructor call in `createRollup`, in order). -/
structure Rollup where
  rollupId : Nat
  dataStartIndex : Nat
  proofs : List Buffer
  rollupRoot : Buffer
  oldDataRoot : Buffer
  newDataRoot : Buffer
  oldDataPath : HashPath
  newDataPath : HashPath
  oldNullRoot : Buffer
  newNullRoots : List Buffer
  oldNullPaths : List HashPath
  newNullPaths : List HashPath
  oldRootRoot : Buffer
  oldRootPaths : List HashPath

/-- The mutable locals of `createRollup`'s per-tx loop. -/
structure RollupAcc where
  db : WorldStateDb
  nextDataIndex : Nat
  newNullRoots : List Buffer
  oldNullPaths : List HashPath
  newNullPaths : List HashPath
  oldRootPaths : List HashPath

/-- One iteration of `createRollup`'s loop: stage the two new notes in the
data tree, spend each nullifier in tree 1 (recording the old path, the new
root and the new path around each put), and record the old root-tree path at
the low 16 bytes of the tx's `noteTreeRoot`. -/
def rollupTxStep (H : MerkleHash) (acc : RollupAcc) (proof : JoinSplitProof) : RollupAcc :=
  let db1 := acc.db.put 0 acc.nextDataIndex proof.newNote1
  let db2 := db1.put 0 (acc.nextDataIndex + 1) proof.newNote2
  let oldNullPath1 := db2.getHashPath H 1 proof.nullifier1
  let db3 := db2.put 1 proof.nullifier1 (toBufferBE 1 64)
  let newNullRoot1 := db3.getRoot H 1
  let newNullPath1 := db3.getHashPath H 1 proof.nullifier1
  let oldNullPath2 := db3.getHashPath H 1 proof.nullifier2
  let db4 := db3.put 1 proof.nullifier2 (toBufferBE 1 64)
  let newNullRoot2 := db4.getRoot H 1
  let newNullPath2 := db4.getHashPath H 1 proof.nullifier2
  let oldRootPath := db4.getHashPath H 2 (toBigIntBE (proof.noteTreeRoot.drop 16))
  { db := db4
    nextDataIndex := acc.nextDataIndex + 2
    newNullRoots := acc.newNullRoots ++ [newNullRoot1, newNullRoot2]
    oldNullPaths := acc.oldNullPaths ++ [oldNullPath1, oldNullPath2]
    newNullPaths := acc.newNullPaths ++ [newNullPath1, newNullPath2]
    oldRootPaths := acc.oldRootPaths ++ [oldRootPath] }

/-- The loop's starting accumulator: the next data index is the current data
tree size. -/
def rollupAccInit (db : WorldStateDb) : RollupAcc := ⟨db, db.getSize 0, [], [], [], []⟩

/-- The accumulator after staging every tx of the batch. -/
def rollupApplyTxs (H : MerkleHash) (db : WorldStateDb) (txs : List JoinSplitProof) : RollupAcc :=
  txs.foldl (rollupTxStep H) (rollupAccInit db)

/-- `Server.createRollup`: snapshot the old roots and the old data path at
`dataStartIndex = size(0)`, stage all txs, read the new data path and pick
`rollupRoot = newDataPath.data[log2(rollupSize)+1][(dataStartIndex/(2*rollupSize)) % 2]`
(the JS `Math.log2` and float division agree with the `Nat` operations under
the power-of-two and alignment preconditions of C9), read the new data root,
roll every staged mutation back, and return the witness together with the
rolled-back store. -/
def createRollup (H : MerkleHash) (nextRollupId rollupSize : Nat)
    (db : WorldStateDb) (txs : List JoinSplitProof) : Rollup × WorldStateDb :=
  let dataStartIndex := db.getSize 0
  let oldDataRoot := db.getRoot H 0
  let oldDataPath := db.getHashPath H 0 dataStartIndex
  let oldNullRoot := db.getRoot H 1
  let oldRootRoot := db.getRoot H 2
  let acc := rollupApplyTxs H db txs
  let newDataPath := acc.db.getHashPath H 0 dataStartIndex
  let rollupRootHeight := Nat.log2 rollupSize + 1
  let rootIndex := dataStartIndex / (rollupSize * 2) % 2
  let rollupRoot := (newDataPath.data.getD rollupRootHeight []).getD rootIndex []
  let newDataRoot := acc.db.getRoot H 0
  let db2 := acc.db.rollback
  (⟨nextRollupId, dataStartIndex, txs.map (fun tx => tx.proofData), rollupRoot,
    oldDataRoot, newDataRoot, oldDataPath, newDataPath, oldNullRoot,
    acc.newNullRoots, acc.oldNullPaths, acc.newNullPaths, oldRootRoot,
    acc.oldRootPaths⟩, db2)

/-- The per-tx loop only stages puts: the committed view is untouched. -/
lemma rollupApplyTxs_committed (H : MerkleHash) (db : WorldStateDb)
    (txs : List JoinSplitProof) :
    (rollupApplyTxs H db txs).db.committed = db.committed := by
  unfold rollupApplyTxs
  have hgen : ∀ (l : List JoinSplitProof) (acc : RollupAcc),
      (l.foldl (rollupTxStep H) acc).db.committed = acc.db.committed := by
    intro l
    induction l with
    | nil => intro acc; rfl
    | cons p rest ih =>
      intro acc
      rw [List.foldl_cons, ih]
      rfl
  exact hgen txs (rollupAccInit db)

/-- C1.  When `createRollup` starts from a clean store (no mutation staged:
working = committed, as guaranteed by every state-queue item ending in
`commit` or `rollback`), the store it returns is byte-for-byte the store it
started from: every staged put is discarded by the final `rollback`, so all
three trees' sizes and roots are unchanged, and the only product is the
`Rollup` witness. -/
theorem createRollup_frame (H : MerkleHash) (nextRollupId rollupSize : Nat)
    (db : WorldStateDb) (txs : List JoinSplitProof)
    (hclean : db.working = db.committed) :
    (createRollup H nextRollupId rollupSize db txs).2 = db := by
  show (rollupApplyTxs H db txs).db.rollback = db
  unfold WorldStateDb.rollback
  rw [rollupApplyTxs_committed]
  cases db with
  | mk committed working =>
    cases hclean
    rfl

/-- A concrete empty tree view: all leaves unset, sizes 0. -/
def treeViewEx : TreeView := ⟨fun _ _ => emptyValue, fun _ => 0⟩

/-- A concrete (degenerate) Merkle backend for witnesses. -/
def merkleHashEx : MerkleHash := ⟨fun _ _ => emptyValue, fun _ _ _ => ⟨[]⟩⟩

/-- A concrete clean world state store. -/
def worldStateDbEx : WorldStateDb := ⟨treeViewEx, treeViewEx⟩

/-- A concrete parsed join-split proof. -/
def joinSplitProofEx : JoinSplitProof := ⟨[], emptyValue, emptyValue, 1, 2, emptyValue, []⟩

/-- C1 witness: building a one-tx rollup from the concrete clean store
returns that store unchanged. -/
theorem createRollup_frame_witness :
    (createRollup merkleHashEx 0 2 worldStateDbEx [joinSplitProofEx]).2 = worldStateDbEx :=
  createRollup_frame merkleHashEx 0 2 worldStateDbEx [joinSplitProofEx] rfl

/-- C9.  With `rollupSize = 2^k` and the pre-batch data size divisible by
`2 * rollupSize`, the witness's `rollupRoot` is entry
`(dataStartIndex / (2*rollupSize)) % 2` at level `log2(rollupSize) + 1 = k + 1`
of the post-insertion hash path of data-tree index `dataStartIndex` (these
preconditions make the JS `Math.log2` and float division exact, matching the
`Nat` arithmetic). -/
theorem createRollup_rollupRoot (H : MerkleHash) (nextRollupId rollupSize k : Nat)
    (db : WorldStateDb) (txs : List JoinSplitProof)
    (hpow : rollupSize = 2 ^ k) (_hdvd : 2 * rollupSize ∣ db.getSize 0) :
    (createRollup H nextRollupId rollupSize db txs).1.rollupRoot =
      (((rollupApplyTxs H db txs).db.getHashPath H 0 (db.getSize 0)).data.getD (k + 1) []).getD
        (db.getSize 0 / (2 * rollupSize) % 2) [] := by
  show ((((rollupApplyTxs H db txs).db.getHashPath H 0 (db.getSize 0)).data.getD
      (Nat.log2 rollupSize + 1) []).getD (db.getSize 0 / (rollupSize * 2) % 2) []) = _
  rw [hpow, Nat.log2_two_pow, Nat.mul_comm (2 ^ k) 2]

/-- C9 witness at the concrete store (data size 0, divisible by 4) and
`rollupSize = 2 = 2^1`. -/
theorem createRollup_rollupRoot_witness :
    (createRollup merkleHashEx 0 2 worldStateDbEx [joinSplitProofEx]).1.rollupRoot =
      (((rollupApplyTxs merkleHashEx worldStateDbEx [joinSplitProofEx]).db.getHashPath
          merkleHashEx 0 (worldStateDbEx.getSize 0)).data.getD (1 + 1) []).getD
        (worldStateDbEx.getSize 0 / (2 * 2) % 2) [] :=
  createRollup_rollupRoot merkleHashEx 0 2 1 worldStateDbEx [joinSplitProofEx]
    (by decide) (by decide)

/-! ## Block confirmation (`Server.handleNewBlock`) -/

/-- A confirmed rollup block, with the fields `handleNewBlock` reads. -/
structure Block where
  blockNum : Nat
  dataStartIndex : Nat
  numDataEntries : Nat
  dataEntries : List Buffer
  nullifiers : List Nat

/-- The `for` loop writing `dataEntries[i]` to data-tree index
`dataStartIndex + i`. -/
def putDataEntries (db : WorldStateDb) (start : Nat) : List Buffer → WorldStateDb
  | [] => db
  | e :: rest => putDataEntries (db.put 0 start e) (start + 1) rest

/-- The data-entry loop followed by the zero-leaf padding put at
`dataStartIndex + numDataEntries - 1` when fewer entries than
`numDataEntries` arrived. -/
def insertDataEntries (db : WorldStateDb) (block : Block) : WorldStateDb :=
  let db1 := putDataEntries db block.dataStartIndex block.dataEntries
  if block.dataEntries.length < block.numDataEntries then
    db1.put 0 (block.dataStartIndex + block.numDataEntries - 1) (List.replicate 64 0)
  else db1

/-- The `for … of block.nullifiers` loop writing `nonEmptyValue` in tree 1. -/
def putNullifiers (db : WorldStateDb) (nullifiers : List Nat) : WorldStateDb :=
  nullifiers.foldl (fun d n => d.put 1 n nonEmptyValue) db

/-- `Server.handleNewBlock`: stage the block's data entries (with the size
padding), register the post-insertion data root in the root tree at its low
16 bytes, mark every nullifier spent, then commit. -/
def handleNewBlock (H : MerkleHash) (db : WorldStateDb) (block : Block) : WorldStateDb :=
  let db2 := insertDataEntries db block
  let db3 := db2.put 2 (toBigIntBE ((db2.getRoot H 0).drop 16)) nonEmptyValue
  let db4 := putNullifiers db3 block.nullifiers
  db4.commit

lemma put_leaf_same (db : WorldStateDb) (t i : Nat) (v : Buffer) :
    (db.put t i v).working.leaf t i = v := by
  simp [WorldStateDb.put, TreeView.put]

lemma put_leaf_ne (db : WorldStateDb) (t i : Nat) (v : Buffer) (t2 i2 : Nat)
    (h : ¬(t2 = t ∧ i2 = i)) :
    (db.put t i v).working.leaf t2 i2 = db.working.leaf t2 i2 := by
  simp [WorldStateDb.put, TreeView.put, h]

lemma put_size (db : WorldStateDb) (t i : Nat) (v : Buffer) (t2 : Nat) :
    (db.put t i v).working.size t2 =
      if t2 = t then max (db.working.size t2) (i + 1) else db.working.size t2 := rfl

/-- Indices below the write window are untouched by the data-entry loop. -/
lemma putDataEntries_leaf_lt (l : List Buffer) (db : WorldStateDb) (start k : Nat)
    (hk : k < start) :
    (putDataEntries db start l).working.leaf 0 k = db.working.leaf 0 k := by
  induction l generalizing db start with
  | nil => rfl
  | cons e rest ih =>
    show (putDataEntries (db.put 0 start e) (start + 1) rest).working.leaf 0 k = _
    rw [ih (db.put 0 start e) (start + 1) (by omega),
      put_leaf_ne db 0 start e 0 k (by omega)]

/-- Trees other than the data tree are untouched by the data-entry loop. -/
lemma putDataEntries_leaf_ne_tree (l : List Buffer) (db : WorldStateDb) (start t k : Nat)
    (ht : t ≠ 0) :
    (putDataEntries db start l).working.leaf t k = db.working.leaf t k := by
  induction l generalizing db start with
  | nil => rfl
  | cons e rest ih =>
    show (putDataEntries (db.put 0 start e) (start + 1) rest).working.leaf t k = _
    rw [ih (db.put 0 start e) (start + 1), put_leaf_ne db 0 start e t k (by tauto)]

/-- The data-entry loop writes `l[i]` at `start + i`. -/
lemma putDataEntries_leaf_at (l : List Buffer) (db : WorldStateDb) (start i : Nat)
    (hi : i < l.length) :
    (putDataEntries db start l).working.leaf 0 (start + i) = l.getD i [] := by
  induction l generalizing db start i with
  | nil => exact absurd hi (by simp)
  | cons e rest ih =>
    cases i with
    | zero =>
      show (putDataEntries (db.put 0 start e) (start + 1) rest).working.leaf 0 start = e
      rw [putDataEntries_leaf_lt rest (db.put 0 start e) (start + 1) start
        (by omega), put_leaf_same]
    | succ j =>
      show (putDataEntries (db.put 0 start e) (start + 1) rest).working.leaf 0
          (start + (j + 1)) = rest.getD j []
      have : start + (j + 1) = (start + 1) + j := by omega
      rw [this]
      exact ih (db.put 0 start e) (start + 1) j (by simpa using hi)

/-- Sizes never shrink across the data-entry loop. -/
lemma putDataEntries_size_mono (l : List Buffer) (db : WorldStateDb) (start t : Nat) :
    db.working.size t ≤ (putDataEntries db start l).working.size t := by
  induction l generalizing db start with
  | nil => exact le_refl _
  | cons e rest ih =>
    calc db.working.size t ≤ (db.put 0 start e).working.size t := by
          rw [put_size]; split <;> omega
      _ ≤ _ := ih (db.put 0 start e) (start + 1)

/-- A non-empty data-entry loop pushes the data-tree size to the end of its
write window. -/
lemma putDataEntries_size_ge (l : List Buffer) (db : WorldStateDb) (start : Nat)
    (hl : l ≠ []) :
    start + l.length ≤ (putDataEntries db start l).working.size 0 := by
  induction l generalizing db start with
  | nil => exact absurd rfl hl
  | cons e rest ih =>
    show start + (rest.length + 1) ≤
      (putDataEntries (db.put 0 start e) (start + 1) rest).working.size 0
    cases hrest : rest with
    | nil =>
      show start + 1 ≤ (db.put 0 start e).working.size 0
      rw [put_size]
      simp
    | cons e2 rest2 =>
      have := ih (db.put 0 start e) (start + 1) (by simp [hrest])
      rw [hrest] at this
      omega

/-- Trees other than tree 1 are untouched by the nullifier loop (leaves and
sizes). -/
lemma putNullifiers_ne_tree (l : List Nat) (db : WorldStateDb) (t k : Nat) (ht : t ≠ 1) :
    (putNullifiers db l).working.leaf t k = db.working.leaf t k ∧
    (putNullifiers db l).working.size t = db.working.size t := by
  induction l generalizing db with
  | nil => exact ⟨rfl, rfl⟩
  | cons n rest ih =>
    show (putNullifiers (db.put 1 n nonEmptyValue) rest).working.leaf t k = _ ∧
      (putNullifiers (db.put 1 n nonEmptyValue) rest).working.size t = _
    obtain ⟨h1, h2⟩ := ih (db.put 1 n nonEmptyValue)
    refine ⟨?_, ?_⟩
    · rw [h1, put_leaf_ne db 1 n nonEmptyValue t k (by tauto)]
    · rw [h2, put_size]
      exact if_neg ht

/-- Leaves of tree 1 at keys the loop does not write are untouched. -/
lemma putNullifiers_not_mem (l : List Nat) (db : WorldStateDb) (n : Nat) (hn : n ∉ l) :
    (putNullifiers db l).working.leaf 1 n = db.working.leaf 1 n := by
  induction l generalizing db with
  | nil => rfl
  | cons m rest ih =>
    show (putNullifiers (db.put 1 m nonEmptyValue) rest).working.leaf 1 n = _
    rw [ih (db.put 1 m nonEmptyValue) (by simp at hn; tauto),
      put_leaf_ne db 1 m nonEmptyValue 1 n (by simp at hn; tauto)]

/-- Every nullifier in the list ends up spent. -/
lemma putNullifiers_mem (l : List Nat) (db : WorldStateDb) (n : Nat) (hn : n ∈ l) :
    (putNullifiers db l).working.leaf 1 n = nonEmptyValue := by
  induction l generalizing db with
  | nil => exact absurd hn (by simp)
  | cons m rest ih =>
    show (putNullifiers (db.put 1 m nonEmptyValue) rest).working.leaf 1 n = nonEmptyValue
    by_cases hr : n ∈ rest
    · exact ih (db.put 1 m nonEmptyValue) hr
    · have hm : n = m := by simp at hn; tauto
      rw [putNullifiers_not_mem rest (db.put 1 m nonEmptyValue) n hr, hm, put_leaf_same]

lemma insertDataEntries_leaf_at (db : WorldStateDb) (block : Block) (i : Nat)
    (hi : i < block.dataEntries.length) :
    (insertDataEntries db block).working.leaf 0 (block.dataStartIndex + i) =
      block.dataEntries.getD i [] := by
  unfold insertDataEntries
  split
  · rename_i hpad
    rw [put_leaf_ne _ 0 _ _ 0 _ (by omega)]
    exact putDataEntries_leaf_at _ db _ i hi
  · exact putDataEntries_leaf_at _ db _ i hi

lemma insertDataEntries_pad (db : WorldStateDb) (block : Block)
    (hpad : block.dataEntries.length < block.numDataEntries) :
    (insertDataEntries db block).working.leaf 0
      (block.dataStartIndex + block.numDataEntries - 1) = List.replicate 64 0 := by
  unfold insertDataEntries
  rw [if_pos hpad, put_leaf_same]

lemma insertDataEntries_leaf_ne_tree (db : WorldStateDb) (block : Block) (t k : Nat)
    (ht : t ≠ 0) :
    (insertDataEntries db block).working.leaf t k = db.working.leaf t k := by
  unfold insertDataEntries
  split
  · rw [put_leaf_ne _ 0 _ _ t k (by tauto)]
    exact putDataEntries_leaf_ne_tree _ db _ t k ht
  · exact putDataEntries_leaf_ne_tree _ db _ t k ht

lemma insertDataEntries_size (db : WorldStateDb) (block : Block)
    (hstart : block.dataStartIndex ≤ db.getSize 0) :
    block.dataStartIndex + block.numDataEntries ≤
      (insertDataEntries db block).working.size 0 := by
  unfold insertDataEntries
  split
  · rename_i hpad
    rw [put_size]
    rw [if_pos rfl]
    omega
  · rename_i hpad
    cases hl : block.dataEntries with
    | nil =>
      rw [hl] at hpad
      simp only [List.length_nil, Nat.not_lt, Nat.le_zero] at hpad
      show block.dataStartIndex + block.numDataEntries ≤ db.working.size 0
      have hsz : db.getSize 0 = db.working.size 0 := rfl
      omega
    | cons e rest =>
      rw [hl] at hpad
      have := putDataEntries_size_ge (e :: rest) db block.dataStartIndex (by simp)
      simp only [List.length_cons] at this hpad
      show block.dataStartIndex + block.numDataEntries ≤
        (putDataEntries db block.dataStartIndex (e :: rest)).working.size 0
      omega

/-- C4.  Handling a confirmed block: each `dataEntries[i]` lands at data-tree
index `dataStartIndex + i`; if fewer entries than `numDataEntries` arrived, a
64-byte zero leaf additionally lands at `dataStartIndex + numDataEntries - 1`;
the value "64 zero bytes with last byte 1" lands at the root-tree key given
by the low 16 bytes of the post-insertion data root, and at nullifier-tree
key `n` for every nullifier `n` of the block; the handler ends in a commit
(working = committed); and afterwards `size(0) ≥ dataStartIndex +
numDataEntries` (for a block extending the current tree,
`dataStartIndex ≤ size(0)`). -/
theorem handleNewBlock_spec (H : MerkleHash) (db : WorldStateDb) (block : Block)
    (hstart : block.dataStartIndex ≤ db.getSize 0) :
    (∀ i, i < block.dataEntries.length →
      (handleNewBlock H db block).committed.leaf 0 (block.dataStartIndex + i) =
        block.dataEntries.getD i []) ∧
    (block.dataEntries.length < block.numDataEntries →
      (handleNewBlock H db block).committed.leaf 0
        (block.dataStartIndex + block.numDataEntries - 1) = List.replicate 64 0) ∧
    (handleNewBlock H db block).committed.leaf 2
      (toBigIntBE (((insertDataEntries db block).getRoot H 0).drop 16)) = nonEmptyValue ∧
    (∀ n, n ∈ block.nullifiers →
      (handleNewBlock H db block).committed.leaf 1 n = nonEmptyValue) ∧
    (handleNewBlock H db block).working = (handleNewBlock H db block).committed ∧
    block.dataStartIndex + block.numDataEntries ≤ (handleNewBlock H db block).getSize 0 := by
  have hcom : (handleNewBlock H db block).committed =
      (putNullifiers ((insertDataEntries db block).put 2
        (toBigIntBE (((insertDataEntries db block).getRoot H 0).drop 16)) nonEmptyValue)
        block.nullifiers).working := rfl
  refine ⟨?_, ?_, ?_, ?_, rfl, ?_⟩
  · intro i hi
    rw [hcom, (putNullifiers_ne_tree block.nullifiers _ 0 (block.dataStartIndex + i)
        (by omega)).1,
      put_leaf_ne _ 2 _ _ 0 _ (by omega)]
    exact insertDataEntries_leaf_at db block i hi
  · intro hpad
    rw [hcom, (putNullifiers_ne_tree block.nullifiers _ 0
        (block.dataStartIndex + block.numDataEntries - 1) (by omega)).1,
      put_leaf_ne _ 2 _ _ 0 _ (by omega)]
    exact insertDataEntries_pad db block hpad
  · rw [hcom, (putNullifiers_ne_tree block.nullifiers _ 2 _ (by omega)).1, put_leaf_same]
  · intro n hn
    rw [hcom]
    exact putNullifiers_mem block.nullifiers _ n hn
  · have hsz : (handleNewBlock H db block).getSize 0 =
        (putNullifiers ((insertDataEntries db block).put 2
          (toBigIntBE (((insertDataEntries db block).getRoot H 0).drop 16)) nonEmptyValue)
          block.nullifiers).working.size 0 := rfl
    rw [hsz, (putNullifiers_ne_tree block.nullifiers _ 0 0 (by omega)).2, put_size,
      if_neg (by omega)]
    exact insertDataEntries_size db block hstart

/-- A concrete confirmed block: one data entry against `numDataEntries = 2`
(so the padding put fires) and one nullifier. -/
def blockEx : Block := ⟨0, 0, 2, [nonEmptyValue], [5]⟩

/-- C4 witness at the concrete clean store and the concrete block. -/
theorem handleNewBlock_spec_witness :
    (∀ i, i < blockEx.dataEntries.length →
      (handleNewBlock merkleHashEx worldStateDbEx blockEx).committed.leaf 0
        (blockEx.dataStartIndex + i) = blockEx.dataEntries.getD i []) ∧
    (blockEx.dataEntries.length < blockEx.numDataEntries →
      (handleNewBlock merkleHashEx worldStateDbEx blockEx).committed.leaf 0
        (blockEx.dataStartIndex + blockEx.numDataEntries - 1) = List.replicate 64 0) ∧
    (handleNewBlock merkleHashEx worldStateDbEx blockEx).committed.leaf 2
      (toBigIntBE (((insertDataEntries worldStateDbEx blockEx).getRoot merkleHashEx 0).drop 16)) =
        nonEmptyValue ∧
    (∀ n, n ∈ blockEx.nullifiers →
      (handleNewBlock merkleHashEx worldStateDbEx blockEx).committed.leaf 1 n = nonEmptyValue) ∧
    (handleNewBlock merkleHashEx worldStateDbEx blockEx).working =
      (handleNewBlock merkleHashEx worldStateDbEx blockEx).committed ∧
    blockEx.dataStartIndex + blockEx.numDataEntries ≤
      (handleNewBlock merkleHashEx worldStateDbEx blockEx).getSize 0 :=
  handleNewBlock_spec merkleHashEx worldStateDbEx blockEx (by decide)
